import Mathlib

/-!
# libgo/crypto: PKCS#7 padding and AES-256-CBC with a PBKDF2 key

A shallow embedding of `src/crypto/padding.go` and `src/crypto/aes.go`.

* A Go `[]byte` is a `List Byte` with `Byte := Fin 256`; a Go `string` is the list of its
  bytes, so `pass == ""` is `pass = []`.
* A Go `int` is an `Int` (no length in this development comes near `2^63`); the one
  narrowing conversion, `byte(n)`, is `byteOfInt` with its explicit `% 256`.
* A Go `(value, error)` result is an `Except Error (List Byte)`: an error carries no data.
  A run-time panic (index or slice out of range, `CryptBlocks` on a ragged buffer) is the
  distinct outcome `Error.runtimePanic`, so that "returns" always means "does not panic".
* The Go libraries used by the package (PBKDF2, the AES block transform, the random
  reader) are not part of the repository: they enter as the parameter `Primitives` and as
  the byte list a reader delivers.
-/

namespace Crypto

/-- One octet. -/
abbrev Byte := Fin 256

/-- The error values of the package (`aes.go` lines 19-25, `padding.go` lines 8-11), the
key-size error of `aes.NewCipher`, the short-read error of `io.ReadFull`, and the outcome
of a run-time panic. -/
inductive Error where
  | ErrInvalidData
  | ErrInvalidPass
  | ErrInvalidSalt
  | ErrEncryptionFailed
  | ErrDecryptionFailed
  | ErrInvalidPKCS7Padding
  | ErrInvalidBlockSize
  | KeySizeError
  | ErrUnexpectedEOF
  | runtimePanic
  deriving DecidableEq, Repr

/-- Equality of results is decidable, so that concrete runs can be checked by evaluation. -/
instance instDecidableEqExcept {ε α : Type} [DecidableEq ε] [DecidableEq α] :
    DecidableEq (Except ε α)
  | .ok a, .ok b => if h : a = b then isTrue (by rw [h]) else isFalse (by simpa using h)
  | .error a, .error b => if h : a = b then isTrue (by rw [h]) else isFalse (by simpa using h)
  | .ok _, .error _ => isFalse (by simp)
  | .error _, .ok _ => isFalse (by simp)

/-- Constant `AES256IterCount` (`aes.go` line 15). -/
def AES256IterCount : Nat := 250000

/-- Constant `AES256KeyLen` (`aes.go` line 16). -/
def AES256KeyLen : Nat := 32

/-- Constant `aes.BlockSize` of the Go standard library. -/
def aesBlockSize : Int := 16

/-! ## Go built-ins -/

/-- Go conversion `byte(n)` of an `int`: the low eight bits. -/
def byteOfInt (n : Int) : Byte := ⟨(n % 256).toNat, by omega⟩

/-- Go `make([]byte, n)`: `n` zero bytes (a negative `n` panics). -/
def makeBytes (n : Int) : Except Error (List Byte) :=
  if n < 0 then .error .runtimePanic else .ok (List.replicate n.toNat 0)

/-- Go `copy(dst, src)`: the first `min (len dst) (len src)` bytes of `dst` are overwritten
by those of `src`; the value is the new content of `dst`. -/
def copyBytes (dst src : List Byte) : List Byte :=
  src.take dst.length ++ dst.drop src.length

/-- Go `bytes.Repeat([]byte{x}, count)` (a negative `count` panics). -/
def bytesRepeat (x : Byte) (count : Int) : Except Error (List Byte) :=
  if count < 0 then .error .runtimePanic else .ok (List.replicate count.toNat x)

/-- Go index expression `b[i]`: panics outside `0 ≤ i < len(b)`. -/
def index (b : List Byte) (i : Int) : Except Error Byte :=
  if i < 0 then .error .runtimePanic
  else match b[i.toNat]? with
    | some x => .ok x
    | none => .error .runtimePanic

/-- Go slice expression `b[:hi]`: panics outside `0 ≤ hi ≤ len(b)`. -/
def sliceTo (b : List Byte) (hi : Int) : Except Error (List Byte) :=
  if hi < 0 ∨ hi > b.length then .error .runtimePanic else .ok (b.take hi.toNat)

/-- Go slice expression `b[lo:]`: panics outside `0 ≤ lo ≤ len(b)`. -/
def sliceFrom (b : List Byte) (lo : Int) : Except Error (List Byte) :=
  if lo < 0 ∨ lo > b.length then .error .runtimePanic else .ok (b.drop lo.toNat)

/-! ## `padding.go` -/

/-- Function `PadPKCS7` (`padding.go` lines 13-27). The `%` of Go is the truncating
`Int.tmod`. The slice `pb[len(b):]` shares its storage with `pb`, so what is copied into it
lands behind the first `len(b)` bytes of `pb`. -/
def PadPKCS7 (b : List Byte) (blockSize : Int) : Except Error (List Byte) :=
  if blockSize ≤ 0 then .error .ErrInvalidBlockSize
  else if b.length = 0 then .error .ErrInvalidData
  else
    let n : Int := blockSize - (Int.tmod b.length blockSize)
    match makeBytes (b.length + n) with
    | .error e => .error e
    | .ok pb =>
      let pb := copyBytes pb b
      match sliceFrom pb b.length, bytesRepeat (byteOfInt n) n with
      | .ok tail, .ok rep => .ok (pb.take b.length ++ copyBytes tail rep)
      | .error e, _ => .error e
      | _, .error e => .error e

/-- The loop of `UnpadPKCS7` (`padding.go` lines 44-48), `for i := 0; i < n; i++`: the first
argument is the number `n - i` of iterations still to run, the second is `i`. -/
def unpadLoop (b : List Byte) (n : Int) : Nat → Int → Except Error Unit
  | 0, _ => .ok ()
  | k + 1, i =>
    match index b (b.length - n + i), index b (b.length - 1) with
    | .ok x, .ok y =>
      if x ≠ y then .error .ErrInvalidPKCS7Padding else unpadLoop b n k (i + 1)
    | .error e, _ => .error e
    | _, .error e => .error e

/-- Function `UnpadPKCS7` (`padding.go` lines 29-51). -/
def UnpadPKCS7 (b : List Byte) (blockSize : Int) : Except Error (List Byte) :=
  if blockSize ≤ 0 then .error .ErrInvalidBlockSize
  else if b.length = 0 then .error .ErrInvalidData
  else
    match index b (b.length - 1) with
    | .error e => .error e
    | .ok last =>
      let n : Int := (last.val : Int)
      if Int.tmod b.length blockSize ≠ 0 ∨ n = 0 ∨ n > blockSize then
        .error .ErrInvalidPKCS7Padding
      else
        match unpadLoop b n n.toNat 0 with
        | .error e => .error e
        | .ok _ => sliceTo b (b.length - n)

/-! ## The Go libraries behind `aes.go` -/

/-- The library functions `aes.go` calls, as parameters: `pbkdf2.Key` with the hash fixed
to SHA-256 (password, salt, iteration count, key length), and the AES block transform of a
`cipher.Block` in both directions (key, 16-byte block). The three laws are all that is
assumed of them: PBKDF2 returns as many bytes as asked for, the block transform maps 16
bytes to 16 bytes, and under a key of a legal size decryption inverts encryption. -/
structure Primitives where
  pbkdf2Key : List Byte → List Byte → Nat → Nat → List Byte
  blockEncrypt : List Byte → List Byte → List Byte
  blockDecrypt : List Byte → List Byte → List Byte
  pbkdf2Key_length : ∀ pw salt iter keyLen, (pbkdf2Key pw salt iter keyLen).length = keyLen
  blockEncrypt_length : ∀ key blk, blk.length = 16 → (blockEncrypt key blk).length = 16
  blockDecrypt_length : ∀ key blk, blk.length = 16 → (blockDecrypt key blk).length = 16
  blockDecrypt_blockEncrypt : ∀ key blk,
    (key.length = 16 ∨ key.length = 24 ∨ key.length = 32) → blk.length = 16 →
    blockDecrypt key (blockEncrypt key blk) = blk

/-- Go `aes.NewCipher(key)`: a `KeySizeError` unless the key has 16, 24 or 32 bytes; the
returned `cipher.Block` is represented by its key. -/
def NewCipher (key : List Byte) : Except Error (List Byte) :=
  if key.length = 16 ∨ key.length = 24 ∨ key.length = 32 then .ok key
  else .error .KeySizeError

/-- Go `io.ReadFull(r, buf)`, the reader `r` given as the bytes it delivers before it
fails: the new content of `buf`, or an error when fewer than `len(buf)` bytes arrive. -/
def ReadFull (r : List Byte) (buf : List Byte) : Except Error (List Byte) :=
  if r.length < buf.length then .error .ErrUnexpectedEOF else .ok (r.take buf.length)

/-- Bytewise exclusive or of two octets. -/
def xorByte (a b : Byte) : Byte := ⟨(a.val ^^^ b.val) % 256, Nat.mod_lt _ (by decide)⟩

/-- Bytewise exclusive or of two buffers, over their common length. -/
def xorBytes (a b : List Byte) : List Byte := List.zipWith xorByte a b

/-- Modelled from the spec: the block loop of the CBC encrypter of `crypto/cipher`
(Go standard library, absent from the repository sources). Each plaintext block is combined by
exclusive or with the previous ciphertext block (the IV for the first block) and then put
through the block transform. The first argument counts the blocks still to process. -/
def cbcEncryptLoop (P : Primitives) (key : List Byte) : Nat → List Byte → List Byte → List Byte
  | 0, _, _ => []
  | k + 1, iv, src =>
    let c := P.blockEncrypt key (xorBytes (src.take 16) iv)
    c ++ cbcEncryptLoop P key k c (src.drop 16)

/-- Modelled from the spec: the block loop of the CBC decrypter of `crypto/cipher`
(Go standard library, absent from the repository sources). Each ciphertext block goes through
the inverse block transform and is then combined by exclusive or with the previous
ciphertext block (the IV for the first block). -/
def cbcDecryptLoop (P : Primitives) (key : List Byte) : Nat → List Byte → List Byte → List Byte
  | 0, _, _ => []
  | k + 1, iv, src =>
    let c := src.take 16
    xorBytes (P.blockDecrypt key c) iv ++ cbcDecryptLoop P key k c (src.drop 16)

/-- Modelled from the spec: `cipher.NewCBCEncrypter(block, iv).CryptBlocks(dst, src)` of
`crypto/cipher` (Go standard library, absent from the repository sources). The constructor
panics when the IV is not one block long, `CryptBlocks` panics when `src` is not a whole
number of blocks or `dst` is shorter than `src`; the value is the new content of `dst`. -/
def cbcEncryptCryptBlocks (P : Primitives) (block iv dst src : List Byte) :
    Except Error (List Byte) :=
  if iv.length ≠ 16 ∨ src.length % 16 ≠ 0 ∨ dst.length < src.length then .error .runtimePanic
  else .ok (copyBytes dst (cbcEncryptLoop P block (src.length / 16) iv src))

/-- Modelled from the spec: `cipher.NewCBCDecrypter(block, iv).CryptBlocks(dst, src)` of
`crypto/cipher` (Go standard library, absent from the repository sources), with the same
panics. -/
def cbcDecryptCryptBlocks (P : Primitives) (block iv dst src : List Byte) :
    Except Error (List Byte) :=
  if iv.length ≠ 16 ∨ src.length % 16 ≠ 0 ∨ dst.length < src.length then .error .runtimePanic
  else .ok (copyBytes dst (cbcDecryptLoop P block (src.length / 16) iv src))

/-! ## `aes.go` -/

/-- Function `EncryptAES256CBCPBKDF2` (`aes.go` lines 27-70); `rnd` is what `rand.Reader`
delivers. The slice `ciphertext[aes.BlockSize:]` shares its storage with `ciphertext`, so
the blocks written into it land behind the IV. -/
def EncryptAES256CBCPBKDF2 (P : Primitives) (rnd : List Byte)
    (plaintext pass salt : List Byte) : Except Error (List Byte) :=
  if plaintext.length = 0 then .error .ErrInvalidData
  else if pass = [] then .error .ErrInvalidPass
  else if salt = [] then .error .ErrInvalidSalt
  else
    match NewCipher (P.pbkdf2Key pass salt AES256IterCount AES256KeyLen) with
    | .error _ => .error .ErrEncryptionFailed
    | .ok block =>
      match PadPKCS7 plaintext aesBlockSize with
      | .error err => .error err
      | .ok input =>
        match makeBytes aesBlockSize with
        | .error e => .error e
        | .ok ivbuf =>
          match ReadFull rnd ivbuf with
          | .error _ => .error .ErrEncryptionFailed
          | .ok iv =>
            match makeBytes (iv.length + input.length) with
            | .error e => .error e
            | .ok ciphertext =>
              let ciphertext := copyBytes ciphertext iv
              match sliceFrom ciphertext aesBlockSize with
              | .error e => .error e
              | .ok dst =>
                match cbcEncryptCryptBlocks P block iv dst input with
                | .error e => .error e
                | .ok dst => .ok (ciphertext.take aesBlockSize.toNat ++ dst)

/-- Function `DecryptAES256CBCPBKDF2` (`aes.go` lines 72-113). The `/` and `%` of Go are the
truncating `Int.tdiv` and `Int.tmod`. -/
def DecryptAES256CBCPBKDF2 (P : Primitives) (ciphertext pass salt : List Byte) :
    Except Error (List Byte) :=
  if ciphertext.length = 0 then .error .ErrInvalidData
  else if pass = [] then .error .ErrInvalidPass
  else if salt = [] then .error .ErrInvalidSalt
  else if Int.tmod ciphertext.length aesBlockSize ≠ 0
      ∨ Int.tdiv ciphertext.length aesBlockSize < 2 then .error .ErrInvalidData
  else
    match sliceTo ciphertext aesBlockSize, sliceFrom ciphertext aesBlockSize with
    | .error e, _ => .error e
    | _, .error e => .error e
    | .ok iv, .ok ciphertext =>
      match NewCipher (P.pbkdf2Key pass salt AES256IterCount AES256KeyLen) with
      | .error _ => .error .ErrDecryptionFailed
      | .ok block =>
        match makeBytes ciphertext.length with
        | .error e => .error e
        | .ok plaintext =>
          match cbcDecryptCryptBlocks P block iv plaintext ciphertext with
          | .error e => .error e
          | .ok plaintext =>
            match UnpadPKCS7 plaintext aesBlockSize with
            | .error err => .error err
            | .ok plaintext => .ok plaintext

/-- A small concrete instance of `Primitives`, used to run the functions on explicit
inputs: the derived key is `keyLen` zero bytes, the block transform adds one to every byte
and its inverse subtracts one. -/
def demoPrimitives : Primitives where
  pbkdf2Key := fun _ _ _ keyLen => List.replicate keyLen 0
  blockEncrypt := fun _ blk => blk.map (fun x => x + 1)
  blockDecrypt := fun _ blk => blk.map (fun x => x - 1)
  pbkdf2Key_length := by intros; simp
  blockEncrypt_length := by intros; simpa
  blockDecrypt_length := by intros; simpa
  blockDecrypt_blockEncrypt := by
    intro _ blk _ _
    simp [List.map_map, Function.comp_def]


/-! ## Go built-ins on in-range arguments -/

theorem makeBytes_natCast (n : Nat) : makeBytes (n : Int) = .ok (List.replicate n 0) := by
  simp [makeBytes]

theorem bytesRepeat_natCast (x : Byte) (n : Nat) :
    bytesRepeat x (n : Int) = .ok (List.replicate n x) := by
  simp [bytesRepeat]

theorem index_natCast (b : List Byte) (i : Nat) (h : i < b.length) :
    index b (i : Int) = .ok b[i] := by
  simp [index, List.getElem?_eq_getElem h]

theorem sliceTo_natCast (b : List Byte) (k : Nat) (h : k ≤ b.length) :
    sliceTo b (k : Int) = .ok (b.take k) := by
  simp [sliceTo]; omega

theorem sliceFrom_natCast (b : List Byte) (k : Nat) (h : k ≤ b.length) :
    sliceFrom b (k : Int) = .ok (b.drop k) := by
  simp [sliceFrom]; omega

theorem copyBytes_of_length_eq (dst src : List Byte) (h : src.length = dst.length) :
    copyBytes dst src = src := by
  simp [copyBytes, ← h]

theorem copyBytes_replicate_append (src : List Byte) (m : Nat) (z : Byte) :
    copyBytes (List.replicate (src.length + m) z) src = src ++ List.replicate m z := by
  simp [copyBytes]

theorem tmod_natCast (a b : Nat) : Int.tmod (a : Int) (b : Int) = ((a % b : Nat) : Int) := by
  rw [Int.tmod_eq_emod (Int.natCast_nonneg a) (Int.natCast_nonneg b)]
  norm_cast

theorem tdiv_natCast (a b : Nat) : Int.tdiv (a : Int) (b : Int) = ((a / b : Nat) : Int) := by
  rw [Int.tdiv_eq_ediv (Int.natCast_nonneg a) (Int.natCast_nonneg b)]
  norm_cast

/-- The pad length `n = blockSize - len(b) % blockSize` lies in `1..blockSize`. -/
theorem padLen_bounds (len bs : Nat) (hbs : 0 < bs) :
    1 ≤ bs - len % bs ∧ bs - len % bs ≤ bs := by
  have := Nat.mod_lt len hbs
  omega

/-- The padded length is a whole number of blocks. -/
theorem padLen_mod (len bs : Nat) (hbs : 0 < bs) : (len + (bs - len % bs)) % bs = 0 := by
  have h := Nat.mod_lt len hbs
  have h2 : len + (bs - len % bs) = bs + (len - len % bs) := by
    have := Nat.mod_le len bs
    omega
  rw [h2]
  have h3 : len - len % bs = bs * (len / bs) := by
    have := Nat.mod_add_div len bs
    omega
  rw [h3]
  simp

/-- What `PadPKCS7` returns on a non-empty buffer and a positive block size: the buffer
followed by `n` copies of `byte(n)`, `n = blockSize - len(b) % blockSize`. -/
theorem PadPKCS7_eq (b : List Byte) (bs : Nat) (hbs : 0 < bs) (hb : b ≠ []) :
    PadPKCS7 b (bs : Int)
      = .ok (b ++ List.replicate (bs - b.length % bs)
                    (byteOfInt ((bs - b.length % bs : Nat) : Int))) := by
  have hlen : b.length ≠ 0 := by simpa using hb
  have hlt := Nat.mod_lt b.length hbs
  have hn : (bs : Int) - Int.tmod (b.length : Int) (bs : Int)
      = ((bs - b.length % bs : Nat) : Int) := by
    rw [tmod_natCast]; omega
  have hsum : ((b.length : Int) + ((bs - b.length % bs : Nat) : Int))
      = ((b.length + (bs - b.length % bs) : Nat) : Int) := by push_cast; rfl
  unfold PadPKCS7
  have h1 : ¬ ((bs : Int) ≤ 0) := by omega
  simp only [h1, if_false, hlen, hn, hsum, makeBytes_natCast, copyBytes_replicate_append,
    bytesRepeat_natCast]
  rw [sliceFrom_natCast _ _ (by simp)]
  simp [copyBytes_of_length_eq]

/-! ## The loop and the result of `UnpadPKCS7` -/

/-- The loop of `UnpadPKCS7` on in-range indices: it never panics, and it ends normally
exactly when each byte it visits equals the last byte. -/
theorem unpadLoop_eq (b : List Byte) (n : Nat) (hn : n ≤ b.length) (hb : 1 ≤ b.length) :
    ∀ (k i : Nat), i + k ≤ n →
      unpadLoop b (n : Int) k (i : Int)
        = if ∀ j, j < k → b[b.length - n + i + j]? = b[b.length - 1]? then .ok ()
          else .error .ErrInvalidPKCS7Padding := by
  intro k
  induction k with
  | zero => intro i _; simp [unpadLoop]
  | succ k ih =>
    intro i hik
    have hidx : (b.length : Int) - (n : Int) + (i : Int) = ((b.length - n + i : Nat) : Int) := by
      omega
    have hlast : (b.length : Int) - 1 = ((b.length - 1 : Nat) : Int) := by omega
    have h1 : b.length - n + i < b.length := by omega
    have h2 : b.length - 1 < b.length := by omega
    have hi1 : ((i : Int) + 1) = ((i + 1 : Nat) : Int) := by push_cast; rfl
    unfold unpadLoop
    rw [hidx, hlast, index_natCast _ _ h1, index_natCast _ _ h2]
    simp only [hi1]
    rw [ih (i + 1) (by omega)]
    by_cases hx : b[b.length - n + i] = b[b.length - 1]
    · simp only [ne_eq, hx, not_true_eq_false, if_false]
      congr 1
      apply propext
      constructor
      · intro h j hj
        rcases Nat.eq_zero_or_pos j with h0 | hpos
        · subst h0
          simp [List.getElem?_eq_getElem h1, List.getElem?_eq_getElem h2, hx]
        · have := h (j - 1) (by omega)
          have e : b.length - n + (i + 1) + (j - 1) = b.length - n + i + j := by omega
          rwa [e] at this
      · intro h j hj
        have := h (j + 1) (by omega)
        have e : b.length - n + i + (j + 1) = b.length - n + (i + 1) + j := by omega
        rwa [e] at this
    · have hne : ¬ ∀ j, j < k + 1 → b[b.length - n + i + j]? = b[b.length - 1]? := by
        intro h
        have := h 0 (by omega)
        simp [List.getElem?_eq_getElem h1, List.getElem?_eq_getElem h2] at this
        exact hx this
      simp [hx, hne]

/-- The bytes the loop visits all equal `v` exactly when the last `n` bytes are `n` copies
of `v`. -/
theorem forall_getElem?_iff_drop (b : List Byte) (n : Nat) (hn : n ≤ b.length) (v : Byte) :
    (∀ j, j < n → b[b.length - n + j]? = some v)
      ↔ b.drop (b.length - n) = List.replicate n v := by
  constructor
  · intro h
    apply List.ext_getElem?
    intro j
    rw [List.getElem?_drop, List.getElem?_replicate]
    by_cases hj : j < n
    · simp [hj, h j hj]
    · simp only [hj, if_false]
      exact List.getElem?_eq_none (by omega)
  · intro h j hj
    have := congrArg (fun l => l[j]?) h
    simp only [List.getElem?_drop, List.getElem?_replicate, hj, if_true] at this
    exact this

/-- The result of `UnpadPKCS7` on a non-empty buffer and a positive block size, in closed
form: with `n` the value of the last byte, the buffer without its last `n` bytes when the
length is a whole number of blocks, `1 ≤ n ≤ blockSize` and the last `n` bytes are all
`n`; the padding error otherwise. -/
theorem UnpadPKCS7_eq (b : List Byte) (bs : Nat) (hbs : 0 < bs) (hb : b ≠ []) :
    UnpadPKCS7 b (bs : Int)
      = if b.length % bs = 0 ∧ 1 ≤ (b.getLast hb).val ∧ (b.getLast hb).val ≤ bs
            ∧ b.drop (b.length - (b.getLast hb).val)
                = List.replicate (b.getLast hb).val (b.getLast hb)
        then .ok (b.take (b.length - (b.getLast hb).val))
        else .error .ErrInvalidPKCS7Padding := by
  have hlen : b.length ≠ 0 := by simpa using hb
  have hpos : 1 ≤ b.length := by omega
  have h2 : b.length - 1 < b.length := by omega
  have hlast : (b.length : Int) - 1 = ((b.length - 1 : Nat) : Int) := by omega
  have hget : b[b.length - 1] = b.getLast hb := by
    rw [List.getLast_eq_getElem]
  have h1 : ¬ ((bs : Int) ≤ 0) := by omega
  unfold UnpadPKCS7
  simp only [h1, if_false, hlen, hlast, index_natCast _ _ h2, hget, tmod_natCast]
  generalize b.getLast hb = last at hget
  by_cases hm : b.length % bs = 0
  swap
  · have : ((b.length % bs : Nat) : Int) ≠ 0 := by exact_mod_cast hm
    rw [if_pos (Or.inl this), if_neg (fun h => hm h.1)]
  by_cases hz : last.val = 0
  · have : ((last.val : Nat) : Int) = 0 := by omega
    rw [if_pos (Or.inr (Or.inl this)), if_neg (fun h => by omega)]
  by_cases hgt : last.val ≤ bs
  swap
  · have : ((last.val : Nat) : Int) > (bs : Int) := by omega
    rw [if_pos (Or.inr (Or.inr this)), if_neg (fun h => hgt h.2.2.1)]
  have hle : last.val ≤ b.length := by
    have := Nat.le_of_dvd (by omega) (Nat.dvd_of_mod_eq_zero hm)
    omega
  have hc1 : ¬ (((b.length % bs : Nat) : Int) ≠ 0 ∨ ((last.val : Nat) : Int) = 0
      ∨ ((last.val : Nat) : Int) > (bs : Int)) := by
    rw [hm]; omega
  have hsub : (b.length : Int) - ((last.val : Nat) : Int) = ((b.length - last.val : Nat) : Int) := by
    omega
  rw [if_neg hc1, Int.toNat_ofNat]
  have hloop := unpadLoop_eq b last.val hle hpos last.val 0 (by omega)
  simp only [Nat.cast_zero, Nat.add_zero] at hloop
  rw [hloop, hsub, sliceTo_natCast _ _ (by omega)]
  have hiff := forall_getElem?_iff_drop b last.val hle last
  have hl : b[b.length - 1]? = some last := by
    rw [List.getElem?_eq_getElem h2, hget]
  simp only [hl, hiff]
  by_cases hd : b.drop (b.length - last.val) = List.replicate last.val last
  · have h1' : 1 ≤ last.val := by omega
    rw [if_pos hd, if_pos ⟨hm, h1', hgt, hd⟩]
  · rw [if_neg hd, if_neg (fun h => hd h.2.2.2)]

/-! ## Round trips of the padding codec -/

theorem byteOfInt_val (n : Nat) (h : n ≤ 255) : (byteOfInt (n : Int)).val = n := by
  simp only [byteOfInt]
  omega

theorem byteOfInt_natCast_val (v : Byte) : byteOfInt ((v.val : Nat) : Int) = v := by
  apply Fin.ext
  have := v.isLt
  simp only [byteOfInt]
  omega

/-- Unpadding what padding built gives the data back, as long as the pad length fits in a
byte. -/
theorem UnpadPKCS7_append_replicate (x : List Byte) (bs : Nat) (hbs : 0 < bs)
    (hn : bs - x.length % bs ≤ 255) :
    UnpadPKCS7 (x ++ List.replicate (bs - x.length % bs)
        (byteOfInt ((bs - x.length % bs : Nat) : Int))) (bs : Int) = .ok x := by
  obtain ⟨h1, h2⟩ := padLen_bounds x.length bs hbs
  generalize hnd : bs - x.length % bs = n at *
  have hv : (byteOfInt (n : Int)).val = n := byteOfInt_val n hn
  have hne : x ++ List.replicate n (byteOfInt (n : Int)) ≠ [] := by
    intro h
    have := congrArg List.length h
    simp at this
    omega
  have hlast : (x ++ List.replicate n (byteOfInt (n : Int))).getLast hne = byteOfInt (n : Int) := by
    have hr : List.replicate n (byteOfInt (n : Int)) ≠ [] := by
      intro h
      have := congrArg List.length h
      simp at this
      omega
    rw [List.getLast_append_of_ne_nil hr, List.getLast_replicate]
  rw [UnpadPKCS7_eq _ bs hbs hne]
  simp only [hlast, hv]
  have hlen : (x ++ List.replicate n (byteOfInt (n : Int))).length = x.length + n := by simp
  have hmod : (x.length + n) % bs = 0 := by
    rw [← hnd]; exact padLen_mod x.length bs hbs
  have hsub : x.length + n - n = x.length := by omega
  rw [hlen, hsub, if_pos ⟨hmod, h1, h2, by simp⟩]
  simp

/-- Padding what unpadding returned rebuilds the padded buffer, for every positive block
size. -/
theorem PadPKCS7_of_UnpadPKCS7 (d x : List Byte) (bs : Nat) (hbs : 0 < bs) (hx : x ≠ [])
    (h : UnpadPKCS7 d (bs : Int) = .ok x) : PadPKCS7 x (bs : Int) = .ok d := by
  have hd : d ≠ [] := by
    intro hd
    subst hd
    have h1 : ¬ ((bs : Int) ≤ 0) := by omega
    simp [UnpadPKCS7, h1] at h
  rw [UnpadPKCS7_eq d bs hbs hd] at h
  split at h
  swap
  · cases h
  rename_i hc
  obtain ⟨hm, h1, h2, hdrop⟩ := hc
  generalize d.getLast hd = last at *
  have hxe : d.take (d.length - last.val) = x := by
    injection h
  have hdl : 0 < d.length := List.length_pos.mpr hd
  have hle : last.val ≤ d.length := by
    have := Nat.le_of_dvd (by omega) (Nat.dvd_of_mod_eq_zero hm)
    omega
  have hxl : x.length = d.length - last.val := by
    rw [← hxe, List.length_take]; omega
  have hxpos : 0 < x.length := List.length_pos.mpr hx
  have hpad : bs - x.length % bs = last.val := by
    obtain ⟨q, hq⟩ := Nat.dvd_of_mod_eq_zero hm
    have hq1 : 1 ≤ q := by
      rcases Nat.eq_zero_or_pos q with h0 | h0
      · subst h0; rw [Nat.mul_zero] at hq; omega
      · exact h0
    obtain ⟨q, rfl⟩ : ∃ r, q = r + 1 := ⟨q - 1, by omega⟩
    have hmul : bs * (q + 1) = bs * q + bs := by ring
    by_cases he : last.val = bs
    · have : x.length = bs * q := by rw [hxl, hq, hmul, he]; omega
      rw [this, Nat.mul_mod_right]; omega
    · have : x.length = (bs - last.val) + bs * q := by rw [hxl, hq, hmul]; omega
      rw [this, Nat.add_mul_mod_self_left, Nat.mod_eq_of_lt (by omega)]; omega
  rw [PadPKCS7_eq x bs hbs hx, hpad, byteOfInt_natCast_val, ← hdrop, ← hxe,
    List.take_append_drop]

/-! ## Exclusive or and the CBC loops -/

theorem xorByte_xorByte_cancel (a b : Byte) : xorByte (xorByte a b) b = a := by
  apply Fin.ext
  have ha : a.val < 2 ^ 8 := a.isLt
  have hb : b.val < 2 ^ 8 := b.isLt
  have hab : a.val ^^^ b.val < 256 := Nat.xor_lt_two_pow ha hb
  simp only [xorByte]
  rw [Nat.mod_eq_of_lt hab, Nat.xor_assoc, Nat.xor_self, Nat.xor_zero]
  exact Nat.mod_eq_of_lt a.isLt

theorem xorBytes_length (a b : List Byte) : (xorBytes a b).length = min a.length b.length := by
  simp [xorBytes]

theorem xorBytes_xorBytes_cancel : ∀ (a b : List Byte), a.length ≤ b.length →
    xorBytes (xorBytes a b) b = a
  | [], _, _ => by simp [xorBytes]
  | x :: a, [], h => by simp at h
  | x :: a, y :: b, h => by
    have ih := xorBytes_xorBytes_cancel a b (by simpa using h)
    simp only [xorBytes] at ih ⊢
    simp [List.zipWith, xorByte_xorByte_cancel, ih]

theorem cbcEncryptLoop_length (P : Primitives) (key : List Byte) :
    ∀ (k : Nat) (iv src : List Byte), iv.length = 16 → src.length = 16 * k →
      (cbcEncryptLoop P key k iv src).length = 16 * k := by
  intro k
  induction k with
  | zero => intro iv src _ _; simp [cbcEncryptLoop]
  | succ k ih =>
    intro iv src hiv hsrc
    have hx : (xorBytes (src.take 16) iv).length = 16 := by
      rw [xorBytes_length, List.length_take]; omega
    have hc := P.blockEncrypt_length key _ hx
    simp only [cbcEncryptLoop, List.length_append, hc]
    rw [ih _ _ hc (by rw [List.length_drop]; omega)]
    omega

theorem cbcDecryptLoop_length (P : Primitives) (key : List Byte) :
    ∀ (k : Nat) (iv src : List Byte), iv.length = 16 → src.length = 16 * k →
      (cbcDecryptLoop P key k iv src).length = 16 * k := by
  intro k
  induction k with
  | zero => intro iv src _ _; simp [cbcDecryptLoop]
  | succ k ih =>
    intro iv src hiv hsrc
    have hc : (src.take 16).length = 16 := by rw [List.length_take]; omega
    have hd := P.blockDecrypt_length key _ hc
    simp only [cbcDecryptLoop, List.length_append, xorBytes_length, hd, hiv]
    rw [ih _ _ hc (by rw [List.length_drop]; omega)]
    omega

/-- CBC decryption undoes CBC encryption under the same key and IV. -/
theorem cbcDecryptLoop_cbcEncryptLoop (P : Primitives) (key : List Byte)
    (hkey : key.length = 16 ∨ key.length = 24 ∨ key.length = 32) :
    ∀ (k : Nat) (iv src : List Byte), iv.length = 16 → src.length = 16 * k →
      cbcDecryptLoop P key k iv (cbcEncryptLoop P key k iv src) = src := by
  intro k
  induction k with
  | zero =>
    intro iv src _ hsrc
    have : src = [] := List.length_eq_zero.mp (by omega)
    simp [cbcDecryptLoop, this]
  | succ k ih =>
    intro iv src hiv hsrc
    have ht : (src.take 16).length = 16 := by rw [List.length_take]; omega
    have hx : (xorBytes (src.take 16) iv).length = 16 := by
      rw [xorBytes_length]; omega
    have hc := P.blockEncrypt_length key _ hx
    simp only [cbcEncryptLoop, cbcDecryptLoop]
    rw [List.take_left' hc, List.drop_left' hc, P.blockDecrypt_blockEncrypt key _ hkey hx,
      xorBytes_xorBytes_cancel _ _ (by omega),
      ih _ _ hc (by rw [List.length_drop]; omega), List.take_append_drop]

/-! ## `aes.go` in closed form -/

theorem NewCipher_pbkdf2Key (P : Primitives) (pass salt : List Byte) :
    NewCipher (P.pbkdf2Key pass salt AES256IterCount AES256KeyLen)
      = .ok (P.pbkdf2Key pass salt AES256IterCount AES256KeyLen) := by
  simp [NewCipher, P.pbkdf2Key_length, AES256KeyLen]

theorem pbkdf2Key_valid (P : Primitives) (pass salt : List Byte) :
    (P.pbkdf2Key pass salt AES256IterCount AES256KeyLen).length = 16
      ∨ (P.pbkdf2Key pass salt AES256IterCount AES256KeyLen).length = 24
      ∨ (P.pbkdf2Key pass salt AES256IterCount AES256KeyLen).length = 32 := by
  simp [P.pbkdf2Key_length, AES256KeyLen]

theorem PadPKCS7_aesBlockSize (p : List Byte) (hp : p ≠ []) :
    PadPKCS7 p aesBlockSize
      = .ok (p ++ List.replicate (16 - p.length % 16)
                    (byteOfInt ((16 - p.length % 16 : Nat) : Int))) :=
  PadPKCS7_eq p 16 (by decide) hp

/-- What `EncryptAES256CBCPBKDF2` returns on three non-empty arguments: an error when the
random reader delivers fewer than 16 bytes, otherwise the IV followed by the CBC encryption
of the padded plaintext. -/
theorem EncryptAES256CBCPBKDF2_eq (P : Primitives) (rnd p pass salt : List Byte)
    (hp : p ≠ []) (hpass : pass ≠ []) (hsalt : salt ≠ []) :
    EncryptAES256CBCPBKDF2 P rnd p pass salt
      = if rnd.length < 16 then .error .ErrEncryptionFailed
        else .ok (rnd.take 16 ++
          cbcEncryptLoop P (P.pbkdf2Key pass salt AES256IterCount AES256KeyLen)
            ((p.length + (16 - p.length % 16)) / 16) (rnd.take 16)
            (p ++ List.replicate (16 - p.length % 16)
                    (byteOfInt ((16 - p.length % 16 : Nat) : Int)))) := by
  have hlen : p.length ≠ 0 := by simpa using hp
  have hmk : makeBytes aesBlockSize = .ok (List.replicate 16 0) := makeBytes_natCast 16
  unfold EncryptAES256CBCPBKDF2
  simp only [hlen, if_false, hpass, hsalt, NewCipher_pbkdf2Key, PadPKCS7_aesBlockSize p hp, hmk]
  by_cases hr : rnd.length < 16
  · simp [ReadFull, hr]
  have hiv : (rnd.take 16).length = 16 := by rw [List.length_take]; omega
  have hrf : ReadFull rnd (List.replicate 16 0) = .ok (rnd.take 16) := by
    simp [ReadFull, hr]
  generalize hin : p ++ List.replicate (16 - p.length % 16)
      (byteOfInt ((16 - p.length % 16 : Nat) : Int)) = input
  have hil : input.length = p.length + (16 - p.length % 16) := by
    rw [← hin]; simp
  have hmod : input.length % 16 = 0 := by
    rw [hil]; exact padLen_mod p.length 16 (by decide)
  generalize rnd.take 16 = iv at hiv hrf
  have hsum : ((iv.length : Int) + (input.length : Int)) = ((iv.length + input.length : Nat) : Int) := by
    push_cast; rfl
  have h16 : aesBlockSize = ((16 : Nat) : Int) := rfl
  have hcopy : copyBytes (List.replicate (iv.length + input.length) 0) iv
      = iv ++ List.replicate input.length 0 := copyBytes_replicate_append iv input.length 0
  have hk : input.length = 16 * (input.length / 16) := by omega
  have hout := cbcEncryptLoop_length P (P.pbkdf2Key pass salt AES256IterCount AES256KeyLen)
      (input.length / 16) iv input hiv hk
  simp only [hrf, hsum, makeBytes_natCast, hcopy, if_neg hr]
  rw [h16, sliceFrom_natCast _ _ (by simp; omega)]
  have hdrop : List.drop 16 (iv ++ List.replicate input.length (0 : Byte))
      = List.replicate input.length 0 := by
    rw [← hiv]; exact List.drop_left _ _
  have htake : List.take (Int.toNat ((16 : Nat) : Int)) (iv ++ List.replicate input.length (0 : Byte))
      = iv := by
    rw [Int.toNat_ofNat, ← hiv]; exact List.take_left _ _
  simp only [hdrop, htake, cbcEncryptCryptBlocks, List.length_replicate]
  rw [if_neg (by omega), copyBytes_of_length_eq _ _ (by simp; omega), ← hil]

/-- What `DecryptAES256CBCPBKDF2` returns on an envelope of at least two whole blocks and a
non-empty passphrase and salt: the unpadded CBC decryption of everything after the first
block, with the first block as IV. -/
theorem DecryptAES256CBCPBKDF2_eq (P : Primitives) (env pass salt : List Byte)
    (hpass : pass ≠ []) (hsalt : salt ≠ []) (hmod : env.length % 16 = 0)
    (hlen : 32 ≤ env.length) :
    DecryptAES256CBCPBKDF2 P env pass salt
      = UnpadPKCS7
          (cbcDecryptLoop P (P.pbkdf2Key pass salt AES256IterCount AES256KeyLen)
            ((env.length - 16) / 16) (env.take 16) (env.drop 16)) aesBlockSize := by
  have hne : env.length ≠ 0 := by omega
  have h16 : aesBlockSize = ((16 : Nat) : Int) := rfl
  have hc : ¬ (Int.tmod (env.length : Int) ((16 : Nat) : Int) ≠ 0
      ∨ Int.tdiv (env.length : Int) ((16 : Nat) : Int) < 2) := by
    rw [tmod_natCast, tdiv_natCast]; omega
  have hiv : (env.take 16).length = 16 := by rw [List.length_take]; omega
  have hdl : (env.drop 16).length = env.length - 16 := List.length_drop _ _
  have hk : (env.drop 16).length = 16 * ((env.length - 16) / 16) := by omega
  have hout := cbcDecryptLoop_length P (P.pbkdf2Key pass salt AES256IterCount AES256KeyLen)
      ((env.length - 16) / 16) (env.take 16) (env.drop 16) hiv hk
  unfold DecryptAES256CBCPBKDF2
  simp only [hne, if_false, hpass, hsalt]
  rw [h16, if_neg hc, sliceTo_natCast _ _ (by omega), sliceFrom_natCast _ _ (by omega)]
  simp only [NewCipher_pbkdf2Key, makeBytes_natCast, cbcDecryptCryptBlocks,
    List.length_replicate]
  rw [if_neg (by omega), hdl, copyBytes_of_length_eq _ _ (by simp; omega)]
  rw [← h16]
  dsimp only
  split <;> rename_i h <;> rw [h]

theorem EncryptAES256CBCPBKDF2_nil_plaintext (P : Primitives) (rnd pass salt : List Byte) :
    EncryptAES256CBCPBKDF2 P rnd [] pass salt = .error .ErrInvalidData := by
  simp [EncryptAES256CBCPBKDF2]

theorem EncryptAES256CBCPBKDF2_nil_pass (P : Primitives) (rnd p salt : List Byte)
    (hp : p ≠ []) : EncryptAES256CBCPBKDF2 P rnd p [] salt = .error .ErrInvalidPass := by
  simp [EncryptAES256CBCPBKDF2, hp]

theorem EncryptAES256CBCPBKDF2_nil_salt (P : Primitives) (rnd p pass : List Byte)
    (hp : p ≠ []) (hpass : pass ≠ []) :
    EncryptAES256CBCPBKDF2 P rnd p pass [] = .error .ErrInvalidSalt := by
  simp [EncryptAES256CBCPBKDF2, hp, hpass]

/-- The whole of `DecryptAES256CBCPBKDF2` in closed form: the four checks in the order of
the source, then the unpadded CBC decryption. -/
theorem DecryptAES256CBCPBKDF2_cases (P : Primitives) (env pass salt : List Byte) :
    DecryptAES256CBCPBKDF2 P env pass salt
      = if env = [] then .error .ErrInvalidData
        else if pass = [] then .error .ErrInvalidPass
        else if salt = [] then .error .ErrInvalidSalt
        else if env.length % 16 ≠ 0 ∨ env.length < 32 then .error .ErrInvalidData
        else UnpadPKCS7
          (cbcDecryptLoop P (P.pbkdf2Key pass salt AES256IterCount AES256KeyLen)
            ((env.length - 16) / 16) (env.take 16) (env.drop 16)) aesBlockSize := by
  by_cases he : env = []
  · subst he; simp [DecryptAES256CBCPBKDF2]
  have hne : env.length ≠ 0 := by simpa using he
  by_cases hpass : pass = []
  · subst hpass; simp [DecryptAES256CBCPBKDF2, he]
  by_cases hsalt : salt = []
  · subst hsalt; simp [DecryptAES256CBCPBKDF2, he, hpass]
  rw [if_neg he, if_neg hpass, if_neg hsalt]
  by_cases hbad : env.length % 16 ≠ 0 ∨ env.length < 32
  · rw [if_pos hbad]
    have h16 : aesBlockSize = ((16 : Nat) : Int) := rfl
    have hc : Int.tmod (env.length : Int) ((16 : Nat) : Int) ≠ 0
        ∨ Int.tdiv (env.length : Int) ((16 : Nat) : Int) < 2 := by
      rw [tmod_natCast, tdiv_natCast]; omega
    unfold DecryptAES256CBCPBKDF2
    simp only [hne, if_false, hpass, hsalt]
    rw [h16, if_pos hc]
  · rw [if_neg hbad]
    exact DecryptAES256CBCPBKDF2_eq P env pass salt hpass hsalt (by omega) (by omega)

/-- For every block cipher and every IV, the two-block envelope made of the IV and the
encryption of one full block of padding decrypts, without error, to the empty buffer. -/
theorem DecryptAES256CBCPBKDF2_full_pad_block (P : Primitives) (iv pass salt : List Byte)
    (hiv : iv.length = 16) (hpass : pass ≠ []) (hsalt : salt ≠ []) :
    DecryptAES256CBCPBKDF2 P
        (iv ++ P.blockEncrypt (P.pbkdf2Key pass salt AES256IterCount AES256KeyLen)
                  (xorBytes (List.replicate 16 16) iv)) pass salt = .ok [] := by
  have hx : (xorBytes (List.replicate 16 (16 : Byte)) iv).length = 16 := by
    rw [xorBytes_length]; simp [hiv]
  have hc := P.blockEncrypt_length (P.pbkdf2Key pass salt AES256IterCount AES256KeyLen) _ hx
  have hrt := cbcDecryptLoop_cbcEncryptLoop P _ (pbkdf2Key_valid P pass salt) 1 iv
    (List.replicate 16 (16 : Byte)) hiv (by simp)
  have henc : cbcEncryptLoop P (P.pbkdf2Key pass salt AES256IterCount AES256KeyLen) 1 iv
      (List.replicate 16 (16 : Byte))
      = P.blockEncrypt (P.pbkdf2Key pass salt AES256IterCount AES256KeyLen)
          (xorBytes (List.replicate 16 16) iv) := by
    simp [cbcEncryptLoop]
  rw [henc] at hrt
  have hl : (iv ++ P.blockEncrypt (P.pbkdf2Key pass salt AES256IterCount AES256KeyLen)
      (xorBytes (List.replicate 16 16) iv)).length = 32 := by
    rw [List.length_append, hiv, hc]
  rw [DecryptAES256CBCPBKDF2_eq P _ pass salt hpass hsalt (by rw [hl]) (by rw [hl]), hl,
    List.take_left' hiv, List.drop_left' hiv]
  have hk : (32 - 16) / 16 = 1 := by decide
  rw [hk, hrt]
  decide

/-! ## The claims -/

/-- C1: for every non-empty plaintext, passphrase and salt, and every random reader that
delivers the 16 bytes of an IV, encryption succeeds and decrypting its envelope with the
same passphrase and salt returns exactly the plaintext, for every block cipher whose
decryption inverts its encryption and every key derivation returning 32 bytes. -/
theorem C1_decrypt_encrypt_roundtrip (P : Primitives) (rnd plaintext pass salt : List Byte)
    (hp : plaintext ≠ []) (hpass : pass ≠ []) (hsalt : salt ≠ []) (hrnd : 16 ≤ rnd.length) :
    ∃ env, EncryptAES256CBCPBKDF2 P rnd plaintext pass salt = .ok env
      ∧ DecryptAES256CBCPBKDF2 P env pass salt = .ok plaintext := by
  rw [EncryptAES256CBCPBKDF2_eq P rnd plaintext pass salt hp hpass hsalt, if_neg (by omega)]
  refine ⟨_, rfl, ?_⟩
  have hiv : (rnd.take 16).length = 16 := by rw [List.length_take]; omega
  generalize rnd.take 16 = iv at hiv
  generalize hin : plaintext ++ List.replicate (16 - plaintext.length % 16)
      (byteOfInt ((16 - plaintext.length % 16 : Nat) : Int)) = input
  have hil : input.length = plaintext.length + (16 - plaintext.length % 16) := by
    rw [← hin]; simp
  have hmod : input.length % 16 = 0 := by
    rw [hil]; exact padLen_mod plaintext.length 16 (by decide)
  have hk : input.length = 16 * (input.length / 16) := by omega
  have hpos : 1 ≤ 16 - plaintext.length % 16 := (padLen_bounds plaintext.length 16 (by decide)).1
  rw [← hil]
  have hct := cbcEncryptLoop_length P (P.pbkdf2Key pass salt AES256IterCount AES256KeyLen)
    (input.length / 16) iv input hiv hk
  have hel : (iv ++ cbcEncryptLoop P (P.pbkdf2Key pass salt AES256IterCount AES256KeyLen)
      (input.length / 16) iv input).length = 16 + input.length := by
    rw [List.length_append, hiv, hct]; omega
  rw [DecryptAES256CBCPBKDF2_eq P _ pass salt hpass hsalt (by rw [hel]; omega)
    (by rw [hel]; omega), hel, List.take_left' hiv, List.drop_left' hiv]
  have hsub : 16 + input.length - 16 = input.length := by omega
  rw [hsub, cbcDecryptLoop_cbcEncryptLoop P _ (pbkdf2Key_valid P pass salt) _ iv input hiv hk,
    ← hin]
  exact UnpadPKCS7_append_replicate plaintext 16 (by decide) (by omega)

/-- C1, run on a two-byte plaintext. -/
theorem C1_decrypt_encrypt_roundtrip_witness :
    ([0x68, 0x69] : List Byte) ≠ [] ∧ ([0x70] : List Byte) ≠ [] ∧ ([0x73] : List Byte) ≠ []
      ∧ 16 ≤ (List.replicate 16 (7 : Byte)).length
      ∧ ∃ env, EncryptAES256CBCPBKDF2 demoPrimitives (List.replicate 16 7) [0x68, 0x69]
            [0x70] [0x73] = .ok env
          ∧ DecryptAES256CBCPBKDF2 demoPrimitives env [0x70] [0x73] = .ok [0x68, 0x69] :=
  ⟨by decide, by decide, by decide, by decide,
    C1_decrypt_encrypt_roundtrip demoPrimitives (List.replicate 16 7) [0x68, 0x69] [0x70] [0x73]
      (by decide) (by decide) (by decide) (by decide)⟩

/-- C2: for every non-empty buffer, padding to block size 16 succeeds and unpadding the
result with block size 16 succeeds and returns exactly the buffer. -/
theorem C2_unpad_pad_16 (x : List Byte) (hx : x ≠ []) :
    ∃ d, PadPKCS7 x 16 = .ok d ∧ UnpadPKCS7 d 16 = .ok x :=
  ⟨_, PadPKCS7_eq x 16 (by decide) hx,
    UnpadPKCS7_append_replicate x 16 (by decide) (by omega)⟩

/-- C2, run on a three-byte buffer. -/
theorem C2_unpad_pad_16_witness :
    ([1, 2, 3] : List Byte) ≠ []
      ∧ ∃ d, PadPKCS7 [1, 2, 3] 16 = .ok d ∧ UnpadPKCS7 d 16 = .ok [1, 2, 3] :=
  ⟨by decide, C2_unpad_pad_16 [1, 2, 3] (by decide)⟩

/-- C3 as stated fails: with block size 257 the one-byte buffer `[0x41]` is padded with 256
bytes of value `byte(256) = 0`, and unpadding that result with block size 257 is rejected. -/
theorem C3_counterexample_block_size_257 :
    PadPKCS7 [0x41] 257 = .ok (0x41 :: List.replicate 256 0)
      ∧ UnpadPKCS7 (0x41 :: List.replicate 256 0) 257 = .error .ErrInvalidPKCS7Padding := by
  set_option maxRecDepth 20000 in
  constructor <;> decide

/-- C3, amended: for every non-empty buffer and every positive block size whose pad length
`blockSize - len(x) mod blockSize` is at most 255, padding succeeds and unpadding the
result succeeds and returns exactly the buffer; every block size from 1 to 255 has such a
pad length. -/
theorem C3_unpad_pad_pad_length_fits_byte (x : List Byte) (blockSize : Int) (hx : x ≠ [])
    (hbs : 0 < blockSize) :
    (blockSize ≤ 255 → blockSize - (x.length : Int) % blockSize ≤ 255)
      ∧ (blockSize - (x.length : Int) % blockSize ≤ 255 →
          ∃ d, PadPKCS7 x blockSize = .ok d ∧ UnpadPKCS7 d blockSize = .ok x) := by
  obtain ⟨bs, rfl⟩ := Int.eq_ofNat_of_zero_le hbs.le
  have hpos : 0 < bs := by omega
  have hlt := Nat.mod_lt x.length hpos
  have hcast : ((x.length : Int) % (bs : Int)) = ((x.length % bs : Nat) : Int) := by norm_cast
  rw [hcast]
  refine ⟨fun h => by omega, fun hfit => ?_⟩
  have hn : bs - x.length % bs ≤ 255 := by omega
  exact ⟨_, PadPKCS7_eq x bs hpos hx, UnpadPKCS7_append_replicate x bs hpos hn⟩

/-- C3 amended, run on a one-byte buffer and block size 255. -/
theorem C3_unpad_pad_pad_length_fits_byte_witness :
    ([0x41] : List Byte) ≠ [] ∧ (0 : Int) < 255
      ∧ ∃ d, PadPKCS7 [0x41] 255 = .ok d ∧ UnpadPKCS7 d 255 = .ok [0x41] :=
  ⟨by decide, by decide,
    (C3_unpad_pad_pad_length_fits_byte [0x41] 255 (by decide) (by decide)).2 (by decide)⟩

/-- C4: for every non-empty buffer, padding to block size 16 returns the buffer followed by
exactly `n` bytes each of value `n`, where `n = 16 - len(x) mod 16` and `1 ≤ n ≤ 16`; the
output length is a multiple of 16; a buffer whose length is a multiple of 16 gets sixteen
bytes `0x10` appended, and a 16-byte buffer gives a 32-byte output. -/
theorem C4_pad_16_shape (x : List Byte) (hx : x ≠ []) :
    ∃ (v : Byte) (d : List Byte),
      v.val = 16 - x.length % 16 ∧ 1 ≤ v.val ∧ v.val ≤ 16
      ∧ PadPKCS7 x 16 = .ok d
      ∧ d = x ++ List.replicate (16 - x.length % 16) v
      ∧ d.length % 16 = 0
      ∧ (x.length % 16 = 0 → d = x ++ List.replicate 16 0x10)
      ∧ (x.length = 16 → d.length = 32 ∧ d.drop 16 = List.replicate 16 0x10) := by
  obtain ⟨h1, h2⟩ := padLen_bounds x.length 16 (by decide)
  have hv := byteOfInt_val (16 - x.length % 16) (by omega)
  refine ⟨byteOfInt ((16 - x.length % 16 : Nat) : Int), _, hv, by omega, by omega,
    PadPKCS7_eq x 16 (by decide) hx, rfl, ?_, ?_, ?_⟩
  · rw [List.length_append, List.length_replicate]
    exact padLen_mod x.length 16 (by decide)
  · intro h0
    rw [h0]
    rfl
  · intro h16
    have h0 : x.length % 16 = 0 := by omega
    rw [h0]
    constructor
    · rw [List.length_append, List.length_replicate]; omega
    · rw [List.drop_left' h16]
      rfl

/-- C4, run on a one-byte buffer. -/
theorem C4_pad_16_shape_witness :
    ([0x41] : List Byte) ≠ []
      ∧ ∃ (v : Byte) (d : List Byte),
        v.val = 16 - ([0x41] : List Byte).length % 16 ∧ 1 ≤ v.val ∧ v.val ≤ 16
        ∧ PadPKCS7 [0x41] 16 = .ok d
        ∧ d = [0x41] ++ List.replicate (16 - ([0x41] : List Byte).length % 16) v
        ∧ d.length % 16 = 0
        ∧ (([0x41] : List Byte).length % 16 = 0 → d = [0x41] ++ List.replicate 16 0x10)
        ∧ (([0x41] : List Byte).length = 16
            → d.length = 32 ∧ d.drop 16 = List.replicate 16 0x10) :=
  ⟨by decide, C4_pad_16_shape [0x41] (by decide)⟩

/-- C5: for every positive block size and every non-empty buffer `d` whose last byte has
value `n`, unpadding succeeds, returning `d` without its last `n` bytes, if and only if
`len(d)` is a multiple of the block size, `1 ≤ n ≤ blockSize` and every one of the last `n`
bytes of `d` has value `n`; in every other case the result is `ErrInvalidPKCS7Padding`
(and no data, and no panic). -/
theorem C5_unpad_accepts_iff (d : List Byte) (blockSize : Int) (last : Byte)
    (hbs : 0 < blockSize) (hlast : d.getLast? = some last) :
    (UnpadPKCS7 d blockSize = .ok (d.take (d.length - last.val))
        ↔ (blockSize ∣ (d.length : Int) ∧ 1 ≤ last.val ∧ (last.val : Int) ≤ blockSize
            ∧ ∀ x ∈ d.drop (d.length - last.val), x.val = last.val))
      ∧ (¬ (blockSize ∣ (d.length : Int) ∧ 1 ≤ last.val ∧ (last.val : Int) ≤ blockSize
            ∧ ∀ x ∈ d.drop (d.length - last.val), x.val = last.val)
          → UnpadPKCS7 d blockSize = .error .ErrInvalidPKCS7Padding) := by
  obtain ⟨bs, rfl⟩ := Int.eq_ofNat_of_zero_le hbs.le
  have hpos : 0 < bs := by omega
  have hd : d ≠ [] := by
    intro h; subst h; simp at hlast
  have hgl : d.getLast hd = last := by
    have := List.getLast?_eq_getLast d hd
    rw [this] at hlast
    exact Option.some.inj hlast
  have hdl : 0 < d.length := List.length_pos.mpr hd
  have hiff : (d.length % bs = 0 ∧ 1 ≤ last.val ∧ last.val ≤ bs
        ∧ d.drop (d.length - last.val) = List.replicate last.val last)
      ↔ ((bs : Int) ∣ (d.length : Int) ∧ 1 ≤ last.val ∧ ((last.val : Nat) : Int) ≤ (bs : Int)
          ∧ ∀ x ∈ d.drop (d.length - last.val), x.val = last.val) := by
    constructor
    · rintro ⟨hm, h1, h2, h3⟩
      refine ⟨Int.natCast_dvd_natCast.mpr (Nat.dvd_of_mod_eq_zero hm), h1, by omega, ?_⟩
      intro x hx
      rw [h3] at hx
      rw [(List.mem_replicate.mp hx).2]
    · rintro ⟨hm, h1, h2, h3⟩
      have hm' : d.length % bs = 0 := Nat.mod_eq_zero_of_dvd (Int.natCast_dvd_natCast.mp hm)
      have hle : last.val ≤ d.length := by
        have := Nat.le_of_dvd hdl (Nat.dvd_of_mod_eq_zero hm')
        omega
      refine ⟨hm', h1, by omega, ?_⟩
      rw [List.eq_replicate_iff]
      refine ⟨by rw [List.length_drop]; omega, ?_⟩
      intro x hx
      exact Fin.ext (h3 x hx)
  have heq := UnpadPKCS7_eq d bs hpos hd
  rw [hgl] at heq
  rw [← hiff, heq]
  constructor
  · constructor
    · intro h
      by_contra hc
      rw [if_neg hc] at h
      cases h
    · intro h
      rw [if_pos h]
  · intro h
    rw [if_neg h]

/-- C5, run on an eight-byte buffer ending in four bytes of value 4, block size 8. -/
theorem C5_unpad_accepts_iff_witness :
    (0 : Int) < 8 ∧ ([9, 9, 9, 9, 4, 4, 4, 4] : List Byte).getLast? = some 4
      ∧ UnpadPKCS7 [9, 9, 9, 9, 4, 4, 4, 4] 8 = .ok [9, 9, 9, 9] :=
  ⟨by decide, by decide,
    (C5_unpad_accepts_iff [9, 9, 9, 9, 4, 4, 4, 4] 8 4 (by decide) (by decide)).1.mpr
      ⟨⟨1, rfl⟩, by decide, by decide, by set_option maxRecDepth 4000 in decide⟩⟩

/-- C6 as stated fails: on a 17-byte envelope (not a multiple of 16, shorter than 32) and an
empty passphrase the result is `ErrInvalidPass`, not `ErrInvalidData`. -/
theorem C6_counterexample_empty_pass :
    DecryptAES256CBCPBKDF2 demoPrimitives (List.replicate 17 0) [] [0x73]
      = .error .ErrInvalidPass := by
  decide

/-- C6, amended: decryption returns `ErrInvalidData` for the empty envelope whatever the
passphrase and salt; for a non-empty envelope whose length is not a multiple of 16 or is
below 32 it returns `ErrInvalidData` when passphrase and salt are both non-empty, while an
empty passphrase is reported first, as `ErrInvalidPass`, and then an empty salt, as
`ErrInvalidSalt`. -/
theorem C6_decrypt_invalid_envelope (P : Primitives) (env pass salt : List Byte)
    (hbad : env = [] ∨ ¬ (16 ∣ env.length) ∨ env.length < 32) :
    (env = [] → DecryptAES256CBCPBKDF2 P env pass salt = .error .ErrInvalidData)
      ∧ (env ≠ [] → pass = [] →
          DecryptAES256CBCPBKDF2 P env pass salt = .error .ErrInvalidPass)
      ∧ (env ≠ [] → pass ≠ [] → salt = [] →
          DecryptAES256CBCPBKDF2 P env pass salt = .error .ErrInvalidSalt)
      ∧ (pass ≠ [] → salt ≠ [] →
          DecryptAES256CBCPBKDF2 P env pass salt = .error .ErrInvalidData) := by
  rw [DecryptAES256CBCPBKDF2_cases]
  refine ⟨?_, ?_, ?_, ?_⟩
  · intro h; rw [if_pos h]
  · intro h1 h2; rw [if_neg h1, if_pos h2]
  · intro h1 h2 h3; rw [if_neg h1, if_neg h2, if_pos h3]
  · intro h2 h3
    by_cases h1 : env = []
    · rw [if_pos h1]
    · rw [if_neg h1, if_neg h2, if_neg h3, if_pos]
      rcases hbad with h | h | h
      · exact absurd h h1
      · left; intro hm; exact h (Nat.dvd_of_mod_eq_zero hm)
      · right; exact h

/-- C6 amended, run on a 17-byte envelope. -/
theorem C6_decrypt_invalid_envelope_witness :
    ((List.replicate 17 (0 : Byte)) = [] ∨ ¬ (16 ∣ (List.replicate 17 (0 : Byte)).length)
        ∨ (List.replicate 17 (0 : Byte)).length < 32)
      ∧ DecryptAES256CBCPBKDF2 demoPrimitives (List.replicate 17 0) [0x70] [0x73]
          = .error .ErrInvalidData :=
  ⟨by decide,
    (C6_decrypt_invalid_envelope demoPrimitives (List.replicate 17 0) [0x70] [0x73]
      (by decide)).2.2.2 (by decide) (by decide)⟩

/-- C7: encryption returns `ErrInvalidData` exactly when the plaintext is empty,
`ErrInvalidPass` exactly when the plaintext is non-empty and the passphrase empty,
`ErrInvalidSalt` exactly when plaintext and passphrase are non-empty and the salt empty;
when all three are non-empty the key set-up and the padding succeed, and the call returns
an envelope with no error once the random reader delivers its 16 bytes (and
`ErrEncryptionFailed` when it does not). -/
theorem C7_encrypt_errors (P : Primitives) (rnd plaintext pass salt : List Byte) :
    (EncryptAES256CBCPBKDF2 P rnd plaintext pass salt = .error .ErrInvalidData
        ↔ plaintext = [])
      ∧ (EncryptAES256CBCPBKDF2 P rnd plaintext pass salt = .error .ErrInvalidPass
        ↔ plaintext ≠ [] ∧ pass = [])
      ∧ (EncryptAES256CBCPBKDF2 P rnd plaintext pass salt = .error .ErrInvalidSalt
        ↔ plaintext ≠ [] ∧ pass ≠ [] ∧ salt = [])
      ∧ (plaintext ≠ [] ∧ pass ≠ [] ∧ salt ≠ [] →
          (∃ block, NewCipher (P.pbkdf2Key pass salt AES256IterCount AES256KeyLen)
              = .ok block)
          ∧ (∃ input, PadPKCS7 plaintext aesBlockSize = .ok input)
          ∧ (16 ≤ rnd.length →
              ∃ env, EncryptAES256CBCPBKDF2 P rnd plaintext pass salt = .ok env)
          ∧ (rnd.length < 16 →
              EncryptAES256CBCPBKDF2 P rnd plaintext pass salt
                = .error .ErrEncryptionFailed)) := by
  by_cases hp : plaintext = []
  · subst hp
    rw [EncryptAES256CBCPBKDF2_nil_plaintext]
    simp
  by_cases hpass : pass = []
  · subst hpass
    rw [EncryptAES256CBCPBKDF2_nil_pass P rnd plaintext salt hp]
    simp [hp]
  by_cases hsalt : salt = []
  · subst hsalt
    rw [EncryptAES256CBCPBKDF2_nil_salt P rnd plaintext pass hp hpass]
    simp [hp, hpass]
  rw [EncryptAES256CBCPBKDF2_eq P rnd plaintext pass salt hp hpass hsalt]
  by_cases hr : rnd.length < 16
  · rw [if_pos hr]
    refine ⟨by simp [hp], by simp [hpass], by simp [hsalt], fun _ => ⟨?_, ?_, ?_, ?_⟩⟩
    · exact ⟨_, NewCipher_pbkdf2Key P pass salt⟩
    · exact ⟨_, PadPKCS7_aesBlockSize plaintext hp⟩
    · intro h; omega
    · intro _; rfl
  · rw [if_neg hr]
    refine ⟨by simp [hp], by simp [hpass], by simp [hsalt], fun _ => ⟨?_, ?_, ?_, ?_⟩⟩
    · exact ⟨_, NewCipher_pbkdf2Key P pass salt⟩
    · exact ⟨_, PadPKCS7_aesBlockSize plaintext hp⟩
    · intro _; exact ⟨_, rfl⟩
    · intro h; omega

/-- C8: every envelope that encryption returns without error, for a plaintext `p` and the
IV read from the random reader, starts with that 16-byte IV and has length
`16 + len(p) + (16 - len(p) mod 16)`; so its length is a multiple of 16 and at least 32. -/
theorem C8_envelope_layout (P : Primitives) (rnd p pass salt env : List Byte)
    (h : EncryptAES256CBCPBKDF2 P rnd p pass salt = .ok env) :
    env.take 16 = rnd.take 16 ∧ (rnd.take 16).length = 16
      ∧ env.length = 16 + p.length + (16 - p.length % 16)
      ∧ env.length % 16 = 0 ∧ 32 ≤ env.length := by
  have hp : p ≠ [] := by
    intro hp; subst hp
    rw [EncryptAES256CBCPBKDF2_nil_plaintext] at h; cases h
  have hpass : pass ≠ [] := by
    intro hpass; subst hpass
    rw [EncryptAES256CBCPBKDF2_nil_pass P rnd p salt hp] at h; cases h
  have hsalt : salt ≠ [] := by
    intro hsalt; subst hsalt
    rw [EncryptAES256CBCPBKDF2_nil_salt P rnd p pass hp hpass] at h; cases h
  rw [EncryptAES256CBCPBKDF2_eq P rnd p pass salt hp hpass hsalt] at h
  by_cases hr : rnd.length < 16
  · rw [if_pos hr] at h; cases h
  rw [if_neg hr] at h
  have hiv : (rnd.take 16).length = 16 := by rw [List.length_take]; omega
  have hmod := padLen_mod p.length 16 (by decide)
  obtain ⟨h1, h2⟩ := padLen_bounds p.length 16 (by decide)
  have hct := cbcEncryptLoop_length P (P.pbkdf2Key pass salt AES256IterCount AES256KeyLen)
    ((p.length + (16 - p.length % 16)) / 16) (rnd.take 16)
    (p ++ List.replicate (16 - p.length % 16) (byteOfInt ((16 - p.length % 16 : Nat) : Int)))
    hiv (by rw [List.length_append, List.length_replicate]; omega)
  have henv := Except.ok.inj h
  have hlen : env.length = 16 + p.length + (16 - p.length % 16) := by
    rw [← henv, List.length_append, hiv, hct]; omega
  have hpl : 0 < p.length := List.length_pos.mpr hp
  refine ⟨?_, hiv, hlen, by omega, by omega⟩
  rw [← henv, List.take_left' hiv]

/-- C8, run on a three-byte plaintext. -/
theorem C8_envelope_layout_witness :
    EncryptAES256CBCPBKDF2 demoPrimitives (List.replicate 16 7) [1, 2, 3] [0x70] [0x73]
        = .ok (List.replicate 16 7 ++ [7, 6, 5] ++ List.replicate 13 11)
      ∧ (List.replicate 16 (7 : Byte) ++ [7, 6, 5] ++ List.replicate 13 11).length
          = 16 + ([1, 2, 3] : List Byte).length + (16 - ([1, 2, 3] : List Byte).length % 16) :=
  ⟨by decide,
    (C8_envelope_layout demoPrimitives (List.replicate 16 7) [1, 2, 3] [0x70] [0x73]
      (List.replicate 16 7 ++ [7, 6, 5] ++ List.replicate 13 11) (by decide)).2.2.1⟩

/-- When decryption returns no error, the returned plaintext is empty in exactly one case:
the CBC decryption of the envelope behind its IV is one block of sixteen bytes `0x10`. -/
theorem DecryptAES256CBCPBKDF2_nil_iff (P : Primitives) (env pass salt out : List Byte)
    (h : DecryptAES256CBCPBKDF2 P env pass salt = .ok out) :
    out = [] ↔
      cbcDecryptLoop P (P.pbkdf2Key pass salt AES256IterCount AES256KeyLen)
        ((env.length - 16) / 16) (env.take 16) (env.drop 16) = List.replicate 16 16 := by
  rw [DecryptAES256CBCPBKDF2_cases] at h
  split at h
  · cases h
  split at h
  · cases h
  split at h
  · cases h
  split at h
  · cases h
  rename_i hne hpass hsalt hbad
  have hmod : env.length % 16 = 0 := by omega
  have hlen : 32 ≤ env.length := by omega
  have hiv : (env.take 16).length = 16 := by rw [List.length_take]; omega
  have hdl : (env.drop 16).length = 16 * ((env.length - 16) / 16) := by
    rw [List.length_drop]; omega
  have hbl := cbcDecryptLoop_length P (P.pbkdf2Key pass salt AES256IterCount AES256KeyLen)
    ((env.length - 16) / 16) (env.take 16) (env.drop 16) hiv hdl
  generalize cbcDecryptLoop P (P.pbkdf2Key pass salt AES256IterCount AES256KeyLen)
    ((env.length - 16) / 16) (env.take 16) (env.drop 16) = buf at h hbl
  constructor
  swap
  · intro hb
    rw [hb] at h
    have hfull : UnpadPKCS7 (List.replicate 16 16) aesBlockSize = .ok [] := by decide
    rw [hfull] at h
    exact (Except.ok.inj h).symm
  intro ho
  have hbuf : buf ≠ [] := by
    intro hb
    rw [hb] at hbl
    simp at hbl
    omega
  have h16 : aesBlockSize = ((16 : Nat) : Int) := rfl
  rw [h16, UnpadPKCS7_eq buf 16 (by decide) hbuf] at h
  split at h
  swap
  · cases h
  rename_i hc
  obtain ⟨_, hn1, hn2, hdrop⟩ := hc
  have hout := Except.ok.inj h
  generalize buf.getLast hbuf = last at hn1 hn2 hdrop hout
  rw [ho] at hout
  have hz : buf.length - last.val = 0 := by
    rcases List.take_eq_nil_iff.mp hout with hz | hz
    · exact hz
    · exact absurd hz hbuf
  have hv : last.val = 16 := by omega
  have hl : last = 16 := Fin.ext hv
  rw [hz, List.drop_zero, hv, hl] at hdrop
  exact hdrop

/-- C9 fails on the code at a 32-byte envelope whose one ciphertext block decrypts to
sixteen bytes `0x10`: decryption returns no error and an empty plaintext, although
encryption and padding both refuse the empty buffer as `ErrInvalidData`. -/
theorem C9_decrypt_returns_empty_plaintext :
    DecryptAES256CBCPBKDF2 demoPrimitives
        (List.replicate 16 7 ++ List.replicate 16 0x18) [0x70] [0x73] = .ok []
      ∧ ¬ (1 ≤ ([] : List Byte).length)
      ∧ EncryptAES256CBCPBKDF2 demoPrimitives (List.replicate 16 7) [] [0x70] [0x73]
          = .error .ErrInvalidData
      ∧ PadPKCS7 [] aesBlockSize = .error .ErrInvalidData := by
  refine ⟨by decide, by decide, by decide, by decide⟩

/-- C10: for every positive block size and every buffer `d`, if unpadding `d` succeeds with
a non-empty result `x`, then padding `x` succeeds and returns exactly `d`; so every
accepted padded buffer that unpads to `x` equals `d`. -/
theorem C10_pad_unpad_canonical (d x : List Byte) (blockSize : Int) (hbs : 0 < blockSize)
    (hx : x ≠ []) (h : UnpadPKCS7 d blockSize = .ok x) :
    PadPKCS7 x blockSize = .ok d
      ∧ ∀ d2, UnpadPKCS7 d2 blockSize = .ok x → d2 = d := by
  obtain ⟨bs, rfl⟩ := Int.eq_ofNat_of_zero_le hbs.le
  have hpos : 0 < bs := by omega
  have h1 := PadPKCS7_of_UnpadPKCS7 d x bs hpos hx h
  refine ⟨h1, ?_⟩
  intro d2 h2
  have h3 := PadPKCS7_of_UnpadPKCS7 d2 x bs hpos hx h2
  rw [h1] at h3
  exact (Except.ok.inj h3).symm

/-- C10, run on an eight-byte buffer with block size 8. -/
theorem C10_pad_unpad_canonical_witness :
    (0 : Int) < 8 ∧ ([9, 9, 9, 9] : List Byte) ≠ []
      ∧ UnpadPKCS7 [9, 9, 9, 9, 4, 4, 4, 4] 8 = .ok [9, 9, 9, 9]
      ∧ PadPKCS7 [9, 9, 9, 9] 8 = .ok [9, 9, 9, 9, 4, 4, 4, 4] :=
  ⟨by decide, by decide, by decide,
    (C10_pad_unpad_canonical [9, 9, 9, 9, 4, 4, 4, 4] [9, 9, 9, 9] 8 (by decide) (by decide)
      (by decide)).1⟩

end Crypto
